import Mathlib

/-!
# Verification of the RAGFlow Obsidian plugin's streaming decoder and transcript formatter

A shallow embedding of the plugin's API client (`sendOpenAICompatibleMessage` /
`processStreamingResponse`), its conversation controller's streaming update loop,
and the markdown transcript formatter (`formatConversationAsMarkdown`).

Strings are modelled as `List Char` (JavaScript strings are sequences of code
points here; none of the verified code inspects surrogates).  Bytes are `Nat`.
`JSON.parse` is modelled as an arbitrary function `JsonParse` returning the
fields the decoder inspects, since the decoder's behaviour is uniform in the
parser's verdict on each payload.
-/

set_option maxHeartbeats 1000000
set_option maxRecDepth 8000

/-- JavaScript's whitespace class (the set recognised by `String.prototype.trim`
and the regex class `\s`): space, tab, line terminators, NBSP, BOM and the
Unicode space separators. -/
def jsWs (c : Char) : Bool :=
  c = ' ' || c = '\t' || c = '\n' ||
  c.toNat = 11 || c.toNat = 12 || c.toNat = 13 ||
  c.toNat = 160 || c.toNat = 0x1680 ||
  (0x2000 ≤ c.toNat && c.toNat ≤ 0x200A) ||
  c.toNat = 0x2028 || c.toNat = 0x2029 || c.toNat = 0x202F ||
  c.toNat = 0x205F || c.toNat = 0x3000 || c.toNat = 0xFEFF

/-- JavaScript `String.prototype.trim`: strip whitespace from both ends. -/
def jsTrim (l : List Char) : List Char :=
  ((l.dropWhile jsWs).reverse.dropWhile jsWs).reverse

/-- JavaScript `String.prototype.replace` with a plain-string pattern: remove
the first occurrence of `pat` (used by the decoder as `line.replace('data:', '')`). -/
def jsReplaceFirst (pat : List Char) : List Char → List Char
  | [] => []
  | c :: cs =>
    if pat.isPrefixOf (c :: cs) then (c :: cs).drop pat.length
    else c :: jsReplaceFirst pat cs

/-- JavaScript `String.prototype.split('\n')`: the segments between newlines.
Always nonempty; the last segment is the text after the last newline. -/
def splitNl : List Char → List (List Char)
  | [] => [[]]
  | c :: cs =>
    if c = '\n' then [] :: splitNl cs
    else
      match splitNl cs with
      | [] => [[c]]
      | l :: ls => (c :: l) :: ls

/-- Prepend `x` onto the first segment of a segment list. -/
def headPre (x : List Char) : List (List Char) → List (List Char)
  | [] => [x]
  | l :: ls => (x ++ l) :: ls

theorem splitNl_ne_nil (l : List Char) : splitNl l ≠ [] := by
  cases l with
  | nil => simp [splitNl]
  | cons c cs =>
    simp only [splitNl]
    split
    · simp
    · split <;> simp

theorem headPre_ne_nil (x : List Char) (ls : List (List Char)) : headPre x ls ≠ [] := by
  cases ls <;> simp [headPre]

theorem splitNl_cons (c : Char) (cs : List Char) :
    splitNl (c :: cs) =
      if c = '\n' then [] :: splitNl cs else headPre [c] (splitNl cs) := by
  simp only [splitNl]
  split
  · rfl
  · cases h : splitNl cs with
    | nil => exact absurd h (splitNl_ne_nil cs)
    | cons l ls => simp [headPre]

theorem headPre_cons (x l : List Char) (ls : List (List Char)) :
    headPre x (l :: ls) = (x ++ l) :: ls := rfl

theorem headPre_append (x y : List Char) (ls : List (List Char)) :
    headPre (x ++ y) ls = headPre x (headPre y ls) := by
  cases ls <;> simp [headPre]

theorem headPre_nil_of_ne_nil {ls : List (List Char)} (h : ls ≠ []) :
    headPre [] ls = ls := by
  cases ls with
  | nil => exact absurd rfl h
  | cons l t => simp [headPre]

theorem getLastD_append_of_ne_nil {α : Type} {ys : List α} (xs : List α) (d : α) (h : ys ≠ []) :
    (xs ++ ys).getLastD d = ys.getLastD d := by
  cases ys with
  | nil => exact absurd rfl h
  | cons b u =>
    rw [List.getLastD_eq_getLast?, List.getLastD_eq_getLast?, List.getLast?_append_of_ne_nil]
    simp

theorem getLastD_irrel {α : Type} {ys : List α} (h : ys ≠ []) (d d' : α) :
    ys.getLastD d = ys.getLastD d' := by
  rw [List.getLastD_eq_getLast?, List.getLastD_eq_getLast?,
    List.getLast?_eq_getLast ys h]
  rfl

theorem dropLast_append_getLastD {α : Type} {ys : List α} (h : ys ≠ []) (d : α) :
    ys.dropLast ++ [ys.getLastD d] = ys := by
  rw [List.getLastD_eq_getLast?, List.getLast?_eq_getLast ys h]
  exact List.dropLast_concat_getLast h

/-- Splitting a concatenation: the complete segments of `a`, then the split of
`b` with `a`'s dangling tail glued onto its first segment. -/
theorem splitNl_append (a b : List Char) :
    splitNl (a ++ b) =
      (splitNl a).dropLast ++ headPre ((splitNl a).getLastD []) (splitNl b) := by
  induction a with
  | nil =>
    show splitNl b = [[]].dropLast ++ headPre ([[]].getLastD []) (splitNl b)
    rw [List.dropLast_single,
      show ([[]] : List (List Char)).getLastD [] = [] from rfl,
      headPre_nil_of_ne_nil (splitNl_ne_nil b), List.nil_append]
  | cons c cs ih =>
    rw [List.cons_append, splitNl_cons, splitNl_cons]
    by_cases hc : c = '\n'
    · rw [if_pos hc, if_pos hc, ih,
        List.dropLast_cons_of_ne_nil (splitNl_ne_nil cs), List.getLastD_cons]
      simp
    · rw [if_neg hc, if_neg hc, ih]
      rcases h : splitNl cs with _ | ⟨l, ls⟩
      · exact absurd h (splitNl_ne_nil cs)
      · rcases hb : splitNl b with _ | ⟨m, ms⟩
        · exact absurd hb (splitNl_ne_nil b)
        · cases ls with
          | nil => simp [headPre]
          | cons l2 ls2 => simp [headPre, List.getLastD_eq_getLast?]

theorem splitNl_no_nl {l : List Char} (h : '\n' ∉ l) : splitNl l = [l] := by
  induction l with
  | nil => rfl
  | cons c cs ih =>
    rw [splitNl_cons]
    have hc : c ≠ '\n' := fun hc => h (hc ▸ List.mem_cons_self c cs)
    have hcs : '\n' ∉ cs := fun hm => h (List.mem_cons_of_mem c hm)
    rw [if_neg hc, ih hcs]
    rfl

theorem no_nl_getLastD_splitNl (l : List Char) : '\n' ∉ (splitNl l).getLastD [] := by
  induction l with
  | nil => simp [splitNl]
  | cons c cs ih =>
    rw [splitNl_cons]
    by_cases hc : c = '\n'
    · rw [if_pos hc, List.getLastD_cons]
      exact ih
    · rw [if_neg hc]
      rcases h : splitNl cs with _ | ⟨seg, segs⟩
      · exact absurd h (splitNl_ne_nil cs)
      · rw [h] at ih
        cases segs with
        | nil =>
          rw [headPre_cons]
          simp only [List.getLastD_eq_getLast?, List.getLast?_singleton,
            Option.getD_some] at ih ⊢
          intro hm
          rcases List.mem_append.mp hm with h1 | h2
          · exact hc (List.mem_singleton.mp h1).symm
          · exact ih h2
        | cons seg2 segs2 =>
          rw [headPre_cons]
          simp only [List.getLastD_eq_getLast?, List.getLast?_cons_cons] at ih ⊢
          exact ih

/-! ## The `TextDecoder('utf-8')` stream decoder

The decoder in `processStreamingResponse` calls `decoder.decode(value, {stream: true})`
on each read, so a multi-byte sequence split across reads is carried over in the
decoder's state rather than turned into replacement characters.  We model the
WHATWG UTF-8 decoder byte-at-a-time: the state holds the partially assembled
code point with its continuation bounds.  The decoder is never flushed (the code
never calls `decode()` at end-of-stream), so a trailing incomplete sequence is
dropped in both the chunked run and the single-read run. -/

structure Utf8State where
  codePoint : Nat
  needed : Nat
  seen : Nat
  lo : Nat
  hi : Nat
  deriving DecidableEq, Repr

def utf8Init : Utf8State := ⟨0, 0, 0, 0x80, 0xBF⟩

def replChar : Char := Char.ofNat 0xFFFD

/-- Handle a byte when no sequence is in progress. -/
def utf8Start (b : Nat) : Utf8State × List Char :=
  if b ≤ 0x7F then (utf8Init, [Char.ofNat b])
  else if 0xC2 ≤ b ∧ b ≤ 0xDF then
    ({ codePoint := b &&& 0x1F, needed := 1, seen := 0, lo := 0x80, hi := 0xBF }, [])
  else if 0xE0 ≤ b ∧ b ≤ 0xEF then
    ({ codePoint := b &&& 0xF, needed := 2, seen := 0,
       lo := if b = 0xE0 then 0xA0 else 0x80,
       hi := if b = 0xED then 0x9F else 0xBF }, [])
  else if 0xF0 ≤ b ∧ b ≤ 0xF4 then
    ({ codePoint := b &&& 0x7, needed := 3, seen := 0,
       lo := if b = 0xF0 then 0x90 else 0x80,
       hi := if b = 0xF4 then 0x8F else 0xBF }, [])
  else (utf8Init, [replChar])

/-- One byte of the WHATWG UTF-8 decoder.  On a continuation-range error the
byte is reprocessed from the initial state after emitting a replacement. -/
def utf8Byte (s : Utf8State) (b : Nat) : Utf8State × List Char :=
  if s.needed = 0 then utf8Start b
  else if b < s.lo ∨ s.hi < b then
    ((utf8Start b).1, replChar :: (utf8Start b).2)
  else
    let cp := (s.codePoint <<< 6) ||| (b &&& 0x3F)
    if s.seen + 1 = s.needed then (utf8Init, [Char.ofNat cp])
    else ({ codePoint := cp, needed := s.needed, seen := s.seen + 1,
            lo := 0x80, hi := 0xBF }, [])

/-- Feed a list of bytes through the decoder, returning the final state and
the emitted characters. -/
def utf8Push : Utf8State → List Nat → Utf8State × List Char
  | s, [] => (s, [])
  | s, b :: bs =>
    ((utf8Push (utf8Byte s b).1 bs).1,
      (utf8Byte s b).2 ++ (utf8Push (utf8Byte s b).1 bs).2)

theorem utf8Push_append (s : Utf8State) (a b : List Nat) :
    utf8Push s (a ++ b) =
      ((utf8Push (utf8Push s a).1 b).1,
        (utf8Push s a).2 ++ (utf8Push (utf8Push s a).1 b).2) := by
  induction a generalizing s with
  | nil => simp [utf8Push]
  | cons x xs ih =>
    simp only [List.cons_append, utf8Push, List.append_eq]
    rw [ih]
    simp [List.append_assoc]

/-! ## `processStreamingResponse`

The decoder inspects each parsed frame only through `choices`, `choices[0].delta`
and `delta.content`, so `JSON.parse` is modelled as an arbitrary function from
the payload string to those fields (`none` = the parse threw).  JavaScript
truthiness of `delta.content` makes an empty string count as absent. -/

structure SseDelta where
  content : Option (List Char)
  deriving DecidableEq

structure SseChoice where
  delta : Option SseDelta
  deriving DecidableEq

structure SseFrame where
  choices : Option (List SseChoice)
  deriving DecidableEq

/-- A model of `JSON.parse` on a frame payload: `none` means the parse threw. -/
abbrev JsonParse := List Char → Option SseFrame

/-- `jsonData.choices && jsonData.choices.length > 0`, then
`choices[0].delta`, then `delta && delta.content` (truthiness). -/
def frameDelta (j : SseFrame) : Option (List Char) :=
  match j.choices with
  | some (c :: _) =>
    match c.delta with
    | some d =>
      match d.content with
      | some s => if s = [] then none else some s
      | none => none
    | none => none
  | _ => none

/-- A callback invocation `callback(chunk, done)`. -/
abbrev Ev := List Char × Bool

/-- Mirrors the `mirror` of the source's `Reference` interface. -/
structure Reference where
  id : List Char
  content : List Char
  document_id : List Char
  document_name : List Char
  dataset_id : List Char
  deriving DecidableEq

/-- The record `{ fullContent, sessionId, reference }` the stream processor resolves with. -/
structure StreamResult where
  fullContent : List Char
  sessionId : List Char
  reference : List Reference
  deriving DecidableEq

/-- The body of `for (const line of lines)` in the main read loop: the guard
`line.trim() && line.startsWith('data:')`, prefix stripping, the `[DONE]`
sentinel check, `JSON.parse` in a per-line `try`, and the delta append +
non-final callback.  The accumulator is `(fullContent, callbacks so far)`. -/
def lineStep (parse : JsonParse) (acc : List Char × List Ev) (line : List Char) :
    List Char × List Ev :=
  if jsTrim line ≠ [] ∧ ("data:".data.isPrefixOf line) then
    if jsTrim (jsReplaceFirst "data:".data line) = "[DONE]".data then acc
    else
      match parse (jsTrim (jsReplaceFirst "data:".data line)) with
      | none => acc
      | some j =>
        match frameDelta j with
        | some c => (acc.1 ++ c, acc.2 ++ [(c, false)])
        | none => acc
  else acc

/-- The loop state of `processStreamingResponse`'s streaming branch. -/
structure LoopState where
  dec : Utf8State
  buffer : List Char
  fullContent : List Char
  events : List Ev

def initLoop : LoopState := ⟨utf8Init, [], [], []⟩

/-- One `reader.read()` that yielded `bytes`: decode with carry-over, append to
the buffer, split on `'\n'`, keep the last segment buffered, process the rest. -/
def readStep (parse : JsonParse) (st : LoopState) (bytes : List Nat) : LoopState :=
  let p := utf8Push st.dec bytes
  let buf := st.buffer ++ p.2
  let ls := splitNl buf
  let r := ls.dropLast.foldl (lineStep parse) (st.fullContent, st.events)
  ⟨p.1, ls.getLastD [], r.1, r.2⟩

/-- The final parse pass over the leftover buffer at end-of-stream.  Unlike the
main loop, the `try` here wraps the whole `for`, so a `JSON.parse` exception
aborts the remaining lines of this pass. -/
def bufLinesStep (parse : JsonParse) (acc : List Char × List Ev) :
    List (List Char) → List Char × List Ev
  | [] => acc
  | line :: rest =>
    if jsTrim line ≠ [] ∧ ("data:".data.isPrefixOf line) then
      if jsTrim (jsReplaceFirst "data:".data line) = "[DONE]".data then
        bufLinesStep parse acc rest
      else
        match parse (jsTrim (jsReplaceFirst "data:".data line)) with
        | none => acc
        | some j =>
          match frameDelta j with
          | some c => bufLinesStep parse (acc.1 ++ c, acc.2 ++ [(c, false)]) rest
          | none => bufLinesStep parse acc rest
    else bufLinesStep parse acc rest

/-- The `done` branch: `if (buffer.trim())` run the final pass, then
`callback('', true)`. -/
def finishStep (parse : JsonParse) (st : LoopState) : List Char × List Ev :=
  let r :=
    if jsTrim st.buffer ≠ [] then bufLinesStep parse (st.fullContent, st.events) (splitNl st.buffer)
    else (st.fullContent, st.events)
  (r.1, r.2 ++ [([], true)])

/-- How the transport ends: a clean end-of-stream, or `reader.read()` rejecting
with an error message. -/
inductive StreamEnding where
  | eof : StreamEnding
  | fail : List Char → StreamEnding
  deriving DecidableEq

/-- The non-streaming fallback's response document, seen through the fields the
code inspects (`choices`, `choices[0].message`, `message.content`).  `none`
models an absent / non-array / falsy field. -/
structure NsMessage where
  content : Option (List Char)
  deriving DecidableEq

structure NsChoice where
  message : Option NsMessage
  deriving DecidableEq

structure NsResponse where
  choices : Option (List NsChoice)
  deriving DecidableEq

/-- The input to one decode run: a streaming `Response` body delivered as byte
chunks with its ending, or a single parsed JSON document. -/
inductive RunInput where
  | stream : List (List Nat) → StreamEnding → RunInput
  | nonStream : NsResponse → RunInput

def msgMissingChoices : List Char := "Invalid response format: missing choices".data
def msgMissingContent : List Char := "Invalid choice format: missing message content".data

/-- `Error: ${error.message}` as delivered by the outer catch's final callback. -/
def errText (msg : List Char) : List Char := "Error: ".data ++ msg

/-- The model of `processStreamingResponse`: the full sequence of callback
invocations, and the promise outcome (`ok` = resolves, `error` = rejects). -/
def processStreamingResponse (parse : JsonParse) :
    RunInput → List Ev × Except (List Char) StreamResult
  | .stream chunks ending =>
    let st := chunks.foldl (readStep parse) initLoop
    match ending with
    | .eof =>
      let r := finishStep parse st
      (r.2, .ok ⟨r.1, [], []⟩)
    | .fail msg => (st.events ++ [(errText msg, true)], .error msg)
  | .nonStream resp =>
    match resp.choices with
    | none => ([(errText msgMissingChoices, true)], .error msgMissingChoices)
    | some [] => ([(errText msgMissingChoices, true)], .error msgMissingChoices)
    | some (c :: _) =>
      match c.message with
      | none => ([(errText msgMissingContent, true)], .error msgMissingContent)
      | some m =>
        match m.content with
        | none => ([(errText msgMissingContent, true)], .error msgMissingContent)
        | some s =>
          if s = [] then ([(errText msgMissingContent, true)], .error msgMissingContent)
          else ([(s, true)], .ok ⟨s, [], []⟩)

/-! ## Characterising the streaming run -/

/-- The specification-level verdict on a single complete line: the delta text
it contributes, if any. -/
def extractLine (parse : JsonParse) (line : List Char) : Option (List Char) :=
  if jsTrim line ≠ [] ∧ ("data:".data.isPrefixOf line) then
    if jsTrim (jsReplaceFirst "data:".data line) = "[DONE]".data then none
    else
      match parse (jsTrim (jsReplaceFirst "data:".data line)) with
      | none => none
      | some j => frameDelta j
  else none

theorem lineStep_eq_extract (parse : JsonParse) (acc : List Char × List Ev)
    (line : List Char) :
    lineStep parse acc line =
      match extractLine parse line with
      | none => acc
      | some c => (acc.1 ++ c, acc.2 ++ [(c, false)]) := by
  unfold lineStep extractLine
  by_cases hg : jsTrim line ≠ [] ∧ ("data:".data.isPrefixOf line)
  · rw [if_pos hg, if_pos hg]
    by_cases hd : jsTrim (jsReplaceFirst "data:".data line) = "[DONE]".data
    · rw [if_pos hd, if_pos hd]
    · rw [if_neg hd, if_neg hd]
      rcases parse (jsTrim (jsReplaceFirst "data:".data line)) with _ | j
      · rfl
      · cases hf : frameDelta j <;> simp [hf]
  · rw [if_neg hg, if_neg hg]

/-- The deltas contributed by a list of complete lines. -/
def lineDeltas (parse : JsonParse) (lines : List (List Char)) : List (List Char) :=
  lines.filterMap (extractLine parse)

theorem foldl_lineStep (parse : JsonParse) (lines : List (List Char))
    (f : List Char) (e : List Ev) :
    lines.foldl (lineStep parse) (f, e) =
      (f ++ (lineDeltas parse lines).flatten,
        e ++ (lineDeltas parse lines).map (fun c => (c, false))) := by
  induction lines generalizing f e with
  | nil => simp [lineDeltas]
  | cons line rest ih =>
    rw [List.foldl_cons, lineStep_eq_extract]
    cases h : extractLine parse line with
    | none => rw [ih]; simp [lineDeltas, h]
    | some c => rw [ih]; simp [lineDeltas, h]

theorem bufLinesStep_singleton (parse : JsonParse) (acc : List Char × List Ev)
    (line : List Char) :
    bufLinesStep parse acc [line] = lineStep parse acc line := by
  unfold bufLinesStep lineStep
  by_cases hg : jsTrim line ≠ [] ∧ ("data:".data.isPrefixOf line)
  · rw [if_pos hg, if_pos hg]
    by_cases hd : jsTrim (jsReplaceFirst "data:".data line) = "[DONE]".data
    · rw [if_pos hd, if_pos hd]
      simp [bufLinesStep]
    · rw [if_neg hd, if_neg hd]
      rcases parse (jsTrim (jsReplaceFirst "data:".data line)) with _ | j
      · rfl
      · cases hf : frameDelta j <;> simp [hf, bufLinesStep]
  · rw [if_neg hg, if_neg hg]
    simp [bufLinesStep]

/-- The text decoded from all bytes of the run (the decoder is never flushed). -/
def decodedText (chunks : List (List Nat)) : List Char :=
  (utf8Push utf8Init chunks.flatten).2

/-- The loop invariant of the read loop: after any list of reads, the decoder
state is the state after all bytes, the buffer is the segment after the last
newline of the decoded text, and the accumulated content/callbacks are exactly
those of the complete lines so far. -/
theorem readLoop_invariant (parse : JsonParse) (chunks : List (List Nat)) :
    (chunks.foldl (readStep parse) initLoop).dec = (utf8Push utf8Init chunks.flatten).1 ∧
    (chunks.foldl (readStep parse) initLoop).buffer =
      (splitNl (decodedText chunks)).getLastD [] ∧
    ((chunks.foldl (readStep parse) initLoop).fullContent,
      (chunks.foldl (readStep parse) initLoop).events) =
      (splitNl (decodedText chunks)).dropLast.foldl (lineStep parse) ([], []) := by
  induction chunks using List.reverseRecOn with
  | nil => simp [initLoop, decodedText, splitNl, utf8Push]
  | append_singleton cs c ih =>
    obtain ⟨ihdec, ihbuf, ihacc⟩ := ih
    rw [List.foldl_append, List.foldl_cons, List.foldl_nil]
    set st := cs.foldl (readStep parse) initLoop with hst
    have hjoin : (cs ++ [c]).flatten = cs.flatten ++ c := by simp
    have hdec : utf8Push utf8Init ((cs ++ [c]).flatten) =
        ((utf8Push (utf8Push utf8Init cs.flatten).1 c).1,
          (utf8Push utf8Init cs.flatten).2 ++ (utf8Push (utf8Push utf8Init cs.flatten).1 c).2) := by
      rw [hjoin, utf8Push_append]
    -- abbreviations for the old text and the newly decoded text
    set T := decodedText cs with hT
    set txt := (utf8Push (utf8Push utf8Init cs.flatten).1 c).2 with htxt
    have hTnew : decodedText (cs ++ [c]) = T ++ txt := by
      simp only [decodedText, hjoin, utf8Push_append, hT, htxt]
    have hLnonl : '\n' ∉ (splitNl T).getLastD [] := no_nl_getLastD_splitNl T
    have hsplitL : splitNl ((splitNl T).getLastD []) = [(splitNl T).getLastD []] :=
      splitNl_no_nl hLnonl
    -- the split of the new text decomposes into old complete lines and the
    -- split of (old tail ++ new text)
    have hdecomp : splitNl (T ++ txt) =
        (splitNl T).dropLast ++ splitNl ((splitNl T).getLastD [] ++ txt) := by
      rw [splitNl_append T txt, splitNl_append ((splitNl T).getLastD []) txt, hsplitL]
      rw [show ([(splitNl T).getLastD []] : List (List Char)).dropLast = [] from rfl,
        show ([(splitNl T).getLastD []] : List (List Char)).getLastD [] =
          (splitNl T).getLastD [] from rfl,
        List.nil_append]
    refine ⟨?_, ?_, ?_⟩
    · rw [readStep, hdec, ihdec]
    · rw [readStep]
      simp only
      rw [ihbuf, ihdec, hTnew, hdecomp, ← htxt,
        getLastD_append_of_ne_nil _ _ (splitNl_ne_nil _)]
    · rw [readStep]
      simp only
      rw [ihbuf, ihdec, ← htxt, hTnew, hdecomp,
        List.dropLast_append_of_ne_nil _ (splitNl_ne_nil _),
        List.foldl_append]
      rw [show ((splitNl T).dropLast.foldl (lineStep parse) ([], [])) =
        (st.fullContent, st.events) from ihacc.symm]

/-- Master characterisation of a clean streaming run: the callbacks are the
deltas of all newline-separated segments of the decoded text (the leftover
buffer included, via the final parse pass) in order as non-final callbacks,
then one final `('', true)`; the promise resolves with their concatenation,
an empty session id and an empty reference list. -/
theorem processStream_eof_eq (parse : JsonParse) (chunks : List (List Nat)) :
    processStreamingResponse parse (.stream chunks .eof) =
      ((lineDeltas parse (splitNl (decodedText chunks))).map (fun c => (c, false)) ++
          [([], true)],
        .ok ⟨(lineDeltas parse (splitNl (decodedText chunks))).flatten, [], []⟩) := by
  obtain ⟨hdec, hbuf, hacc⟩ := readLoop_invariant parse chunks
  have hnl : '\n' ∉ (splitNl (decodedText chunks)).getLastD [] :=
    no_nl_getLastD_splitNl (decodedText chunks)
  have hsplitbuf :
      splitNl ((chunks.foldl (readStep parse) initLoop).buffer) =
        [(splitNl (decodedText chunks)).getLastD []] := by
    rw [hbuf]
    exact splitNl_no_nl hnl
  have hfold :
      (splitNl (decodedText chunks)).foldl (lineStep parse) ([], []) =
        lineStep parse
          ((chunks.foldl (readStep parse) initLoop).fullContent,
            (chunks.foldl (readStep parse) initLoop).events)
          ((splitNl (decodedText chunks)).getLastD []) := by
    conv_lhs =>
      rw [← dropLast_append_getLastD (splitNl_ne_nil (decodedText chunks)) ([] : List Char)]
    rw [List.foldl_append, List.foldl_cons, List.foldl_nil, ← hacc]
  have key : finishStep parse (chunks.foldl (readStep parse) initLoop) =
      (((splitNl (decodedText chunks)).foldl (lineStep parse) ([], [])).1,
        ((splitNl (decodedText chunks)).foldl (lineStep parse) ([], [])).2 ++ [([], true)]) := by
    unfold finishStep
    by_cases htr : jsTrim (chunks.foldl (readStep parse) initLoop).buffer ≠ []
    · rw [if_pos htr, hsplitbuf, bufLinesStep_singleton, hfold]
    · rw [if_neg htr]
      push_neg at htr
      rw [hfold, lineStep]
      have hL : jsTrim ((splitNl (decodedText chunks)).getLastD []) = [] := by
        rw [← hbuf]; exact htr
      have hg : ¬(jsTrim ((splitNl (decodedText chunks)).getLastD []) ≠ [] ∧
          "data:".data.isPrefixOf ((splitNl (decodedText chunks)).getLastD []) = true) :=
        fun hcon => hcon.1 hL
      rw [if_neg hg]
  show (let st := chunks.foldl (readStep parse) initLoop
        let r := finishStep parse st
        ((r.2 : List Ev), (.ok ⟨r.1, [], []⟩ : Except (List Char) StreamResult))) = _
  simp only [key, foldl_lineStep, List.nil_append]

def resultFullContent : Except (List Char) StreamResult → List Char
  | .ok r => r.fullContent
  | .error _ => []

/-- ASCII text as a byte list, for concrete inputs. -/
def ascii (s : String) : List Nat := s.data.map Char.toNat

/-- A concrete `JSON.parse` model used by the witnesses: recognises the two
payloads `{"a"}` and `{"b"}` as frames carrying deltas `A` and `B`. -/
def parse0 : JsonParse := fun s =>
  if s = "\x7b\"a\"\x7d".data then some ⟨some [⟨some ⟨some "A".data⟩⟩]⟩
  else if s = "\x7b\"b\"\x7d".data then some ⟨some [⟨some ⟨some "B".data⟩⟩]⟩
  else none

/-- C1: for every finite byte stream and every way of partitioning it into read
chunks (including splits mid-line and mid-multibyte-character), the streaming
decoder produces the same callbacks and resolves with the same result — in
particular the same concatenated `fullContent` — as when all bytes are
delivered in a single read. -/
theorem c1_chunking_invariant (parse : JsonParse) (chunks : List (List Nat)) :
    processStreamingResponse parse (.stream chunks .eof) =
      processStreamingResponse parse (.stream [chunks.flatten] .eof) := by
  rw [processStream_eof_eq, processStream_eof_eq]
  have h : decodedText [chunks.flatten] = decodedText chunks := by
    simp [decodedText]
  rw [h]

/-- Events of a chunk-fold are all non-final. -/
theorem loop_events_nonfinal (parse : JsonParse) (chunks : List (List Nat)) :
    (chunks.foldl (readStep parse) initLoop).events =
      (lineDeltas parse (splitNl (decodedText chunks)).dropLast).map (fun c => (c, false)) := by
  obtain ⟨-, -, hacc⟩ := readLoop_invariant parse chunks
  have h := congrArg Prod.snd hacc
  rw [foldl_lineStep] at h
  simpa using h

/-- The non-streaming branch always issues exactly one callback, a final one. -/
theorem nonStream_run_events (parse : JsonParse) (resp : NsResponse) :
    ∃ t, (processStreamingResponse parse (.nonStream resp)).1 = [(t, true)] := by
  obtain ⟨cho⟩ := resp
  cases cho with
  | none => exact ⟨_, rfl⟩
  | some cl =>
    cases cl with
    | nil => exact ⟨_, rfl⟩
    | cons c rest =>
      obtain ⟨msg⟩ := c
      cases msg with
      | none => exact ⟨_, rfl⟩
      | some m =>
        obtain ⟨cont⟩ := m
        cases cont with
        | none => exact ⟨_, rfl⟩
        | some s =>
          simp only [processStreamingResponse]
          by_cases hs : s = []
          · rw [if_pos hs]
            exact ⟨_, rfl⟩
          · rw [if_neg hs]
            exact ⟨_, rfl⟩

/-- C2: every decode run — streaming or non-streaming, clean or failed —
invokes the callback with `isFinal = true` exactly once, as its last
invocation; on streaming end-of-stream that final callback carries empty
text. -/
theorem c2_single_final_callback (parse : JsonParse) (input : RunInput) :
    ∃ pre fin, (processStreamingResponse parse input).1 = pre ++ [fin] ∧
      fin.2 = true ∧ (∀ e ∈ pre, e.2 = false) ∧
      (∀ chunks, input = RunInput.stream chunks StreamEnding.eof → fin.1 = []) := by
  cases input with
  | stream chunks ending =>
    cases ending with
    | eof =>
      refine ⟨(lineDeltas parse (splitNl (decodedText chunks))).map (fun c => (c, false)),
        ([], true), ?_, rfl, ?_, ?_⟩
      · rw [processStream_eof_eq]
      · intro e he
        simp only [List.mem_map] at he
        obtain ⟨c, -, rfl⟩ := he
        rfl
      · intro chunks' h
        rfl
    | fail msg =>
      refine ⟨(chunks.foldl (readStep parse) initLoop).events, (errText msg, true),
        rfl, rfl, ?_, ?_⟩
      · intro e he
        rw [loop_events_nonfinal] at he
        simp only [List.mem_map] at he
        obtain ⟨c, -, rfl⟩ := he
        rfl
      · intro chunks' h
        cases h
  | nonStream resp =>
    obtain ⟨t, ht⟩ := nonStream_run_events parse resp
    refine ⟨[], (t, true), by rw [ht]; rfl, rfl, by simp, ?_⟩
    intro chunks h
    cases h

/-- C3: a line whose payload fails to parse is skipped in isolation — whether
it was completed during the read loop or sat in the buffer at end-of-stream —
and the content of every valid data line is still forwarded as a non-final
delta and included in the final answer. -/
theorem c3_malformed_line_skipped (parse : JsonParse) (chunks : List (List Nat))
    (line c : List Char)
    (hmem : line ∈ splitNl (decodedText chunks))
    (hx : extractLine parse line = some c) :
    (c, false) ∈ (processStreamingResponse parse (.stream chunks .eof)).1 ∧
      c <:+: resultFullContent (processStreamingResponse parse (.stream chunks .eof)).2 := by
  rw [processStream_eof_eq]
  have hc : c ∈ lineDeltas parse (splitNl (decodedText chunks)) :=
    List.mem_filterMap.mpr ⟨line, hmem, hx⟩
  constructor
  · exact List.mem_append_left _ (List.mem_map.mpr ⟨c, hc, rfl⟩)
  · exact List.infix_of_mem_flatten hc

theorem c3_malformed_line_skipped_witness :
    ("B".data, false) ∈ (processStreamingResponse parse0
        (.stream [ascii "data: \x7b\"a\"\x7d\ndata: bad\ndata: \x7b\"b\"\x7d\n"] .eof)).1 ∧
      "B".data <:+: resultFullContent (processStreamingResponse parse0
        (.stream [ascii "data: \x7b\"a\"\x7d\ndata: bad\ndata: \x7b\"b\"\x7d\n"] .eof)).2 :=
  c3_malformed_line_skipped parse0 [ascii "data: \x7b\"a\"\x7d\ndata: bad\ndata: \x7b\"b\"\x7d\n"]
    "data: \x7b\"b\"\x7d".data "B".data (by decide) (by decide)

/-- A complete line the decoder ignores outright: it does not start with the
event-data prefix, or its payload is the `[DONE]` sentinel. -/
def ignoredLine (line : List Char) : Bool :=
  !("data:".data.isPrefixOf line) ||
    (jsTrim (jsReplaceFirst "data:".data line) == "[DONE]".data)

theorem extract_of_ignored (parse : JsonParse) (line : List Char)
    (h : ignoredLine line = true) : extractLine parse line = none := by
  unfold ignoredLine at h
  unfold extractLine
  by_cases hp : "data:".data.isPrefixOf line = true
  · have hd : jsTrim (jsReplaceFirst "data:".data line) = "[DONE]".data := by
      simp only [hp, Bool.not_true, Bool.false_or, beq_iff_eq] at h
      exact h
    by_cases hg : jsTrim line ≠ [] ∧ ("data:".data.isPrefixOf line) = true
    · rw [if_pos hg, if_pos hd]
    · rw [if_neg hg]
  · rw [if_neg (fun hcon => hp hcon.2)]

theorem lineDeltas_filter_ignored (parse : JsonParse) (lines : List (List Char)) :
    lineDeltas parse (lines.filter (fun l => !ignoredLine l)) = lineDeltas parse lines := by
  induction lines with
  | nil => rfl
  | cons l rest ih =>
    by_cases hi : ignoredLine l = true
    · simpa [lineDeltas, List.filter_cons, hi, List.filterMap_cons,
        extract_of_ignored parse l hi] using ih
    · have hif : ignoredLine l = false := by simpa using hi
      cases hx : extractLine parse l with
      | none =>
        simpa [lineDeltas, List.filter_cons, hif, List.filterMap_cons, hx] using ih
      | some c =>
        simpa [lineDeltas, List.filter_cons, hif, List.filterMap_cons, hx] using ih

/-- C4: `[DONE]` sentinel lines and lines not starting with the data prefix
contribute nothing: every callback and the resolved `fullContent` are computed
solely from the non-ignored lines. -/
theorem c4_sentinel_and_non_data_ignored (parse : JsonParse) (chunks : List (List Nat)) :
    (∀ line, ignoredLine line = true → extractLine parse line = none) ∧
    processStreamingResponse parse (.stream chunks .eof) =
      ((lineDeltas parse
          ((splitNl (decodedText chunks)).filter (fun l => !ignoredLine l))).map
            (fun c => (c, false)) ++ [([], true)],
        .ok ⟨(lineDeltas parse
          ((splitNl (decodedText chunks)).filter (fun l => !ignoredLine l))).flatten,
          [], []⟩) := by
  refine ⟨fun line => extract_of_ignored parse line, ?_⟩
  rw [processStream_eof_eq, lineDeltas_filter_ignored]

/-- C5: a streaming run that completes without a transport error resolves with
`fullContent` equal to the in-order concatenation of the non-empty
`choices[0].delta.content` fields of the successfully parsed frames — each of
which was forwarded to the callback as a non-final delta — together with an
empty reference list and an empty session identifier. -/
theorem c5_resolved_value (parse : JsonParse) (chunks : List (List Nat)) :
    processStreamingResponse parse (.stream chunks .eof) =
      ((lineDeltas parse (splitNl (decodedText chunks))).map (fun c => (c, false)) ++
          [([], true)],
        .ok ⟨(lineDeltas parse (splitNl (decodedText chunks))).flatten, [], []⟩) :=
  processStream_eof_eq parse chunks

/-- C6: a well-formed non-streaming response produces exactly one callback —
final, carrying the first choice's message content — no non-final deltas, and
resolves with that content as `fullContent`. -/
theorem c6_non_streaming_single_final (parse : JsonParse) (resp : NsResponse)
    (c : NsChoice) (rest : List NsChoice) (m : NsMessage) (s : List Char)
    (hch : resp.choices = some (c :: rest)) (hm : c.message = some m)
    (hc : m.content = some s) (hs : s ≠ []) :
    processStreamingResponse parse (.nonStream resp) =
      ([(s, true)], .ok ⟨s, [], []⟩) := by
  obtain ⟨cho⟩ := resp
  obtain ⟨msg⟩ := c
  obtain ⟨cont⟩ := m
  simp only [NsResponse.choices] at hch
  simp only [NsChoice.message] at hm
  simp only [NsMessage.content] at hc
  subst hch
  subst hm
  subst hc
  simp [processStreamingResponse, hs]

theorem c6_non_streaming_single_final_witness :
    processStreamingResponse parse0
        (.nonStream ⟨some [⟨some ⟨some "Hi there".data⟩⟩]⟩) =
      ([("Hi there".data, true)], .ok ⟨"Hi there".data, [], []⟩) :=
  c6_non_streaming_single_final parse0 ⟨some [⟨some ⟨some "Hi there".data⟩⟩]⟩
    ⟨some ⟨some "Hi there".data⟩⟩ [] ⟨some "Hi there".data⟩ "Hi there".data
    rfl rfl rfl (by decide)

/-- A structurally invalid non-streaming completion payload: `choices` missing
or empty, or the first choice lacking a (truthy) `message.content`. -/
def nsInvalid (resp : NsResponse) : Bool :=
  match resp.choices with
  | none => true
  | some [] => true
  | some (c :: _) =>
    match c.message with
    | none => true
    | some m =>
      match m.content with
      | none => true
      | some [] => true
      | some (_ :: _) => false

/-- C7: a structurally invalid non-streaming payload makes the decoder raise an
error instead of returning a result. -/
theorem c7_invalid_payload_raises (parse : JsonParse) (resp : NsResponse)
    (h : nsInvalid resp = true) :
    ∃ msg, (processStreamingResponse parse (.nonStream resp)).2 = .error msg := by
  obtain ⟨cho⟩ := resp
  cases cho with
  | none => exact ⟨_, rfl⟩
  | some cl =>
    cases cl with
    | nil => exact ⟨_, rfl⟩
    | cons c rest =>
      obtain ⟨msg⟩ := c
      cases msg with
      | none => exact ⟨_, rfl⟩
      | some m =>
        obtain ⟨cont⟩ := m
        cases cont with
        | none => exact ⟨_, rfl⟩
        | some s =>
          cases s with
          | nil => exact ⟨_, rfl⟩
          | cons a t => simp [nsInvalid] at h

theorem c7_invalid_payload_raises_witness :
    ∃ msg, (processStreamingResponse parse0 (.nonStream ⟨some [⟨none⟩]⟩)).2 = .error msg :=
  c7_invalid_payload_raises parse0 ⟨some [⟨none⟩]⟩ (by decide)

/-! ## `sendOpenAICompatibleMessage` -/

/-- What `fetchWithAuth` handed back for a `/chats_openai/` POST: either the
raw `Response` whose body is a byte stream, or a parsed JSON document together
with its error-shape fields `code` and `message`. -/
inductive FetchResult where
  | streamResp : List (List Nat) → StreamEnding → FetchResult
  | jsonResp : NsResponse → Option Int → Option (List Char) → FetchResult

/-- `response.code && response.code !== 0 && response.message` (truthiness). -/
def fetchErrorShape : FetchResult → Bool
  | .streamResp _ _ => false
  | .jsonResp _ code message =>
    (match code with
     | some c => decide (c ≠ 0)
     | none => false) &&
    (match message with
     | some m => decide (m ≠ [])
     | none => false)

/-- The record `sendOpenAICompatibleMessage` resolves with; `stream` is the
response captured by the returned `processStream` closure. -/
structure SendResult where
  answer : List Char
  sessionId : List Char
  reference : List Reference
  stream : FetchResult

/-- The model of `sendOpenAICompatibleMessage`: input validation, the error
checks on the fetched response, and the returned placeholder record. -/
def sendOpenAICompatibleMessage (chatAssistantId question : List Char)
    (fetched : Option FetchResult) : Except (List Char) SendResult :=
  if chatAssistantId = [] then .error "Chat assistant ID is required".data
  else if jsTrim question = [] then .error "Message cannot be empty".data
  else
    match fetched with
    | none => .error "Empty response from RAGFlow API".data
    | some r =>
      if fetchErrorShape r then .error "RAGFlow API error".data
      else .ok { answer := "Streaming response...".data, sessionId := [],
                 reference := [], stream := r }

/-- C10: whenever `sendOpenAICompatibleMessage` resolves, the returned record's
`answer` is the constant placeholder `'Streaming response...'`, its `sessionId`
is empty and its `reference` is empty — independent of the response; the
response itself is only carried inside the returned `processStream` closure. -/
theorem c10_placeholder_record (chatAssistantId question : List Char)
    (fetched : Option FetchResult) (r : SendResult)
    (h : sendOpenAICompatibleMessage chatAssistantId question fetched = .ok r) :
    r.answer = "Streaming response...".data ∧ r.sessionId = [] ∧ r.reference = [] ∧
      some r.stream = fetched := by
  unfold sendOpenAICompatibleMessage at h
  by_cases h1 : chatAssistantId = []
  · rw [if_pos h1] at h
    cases h
  · rw [if_neg h1] at h
    by_cases h2 : jsTrim question = []
    · rw [if_pos h2] at h
      cases h
    · rw [if_neg h2] at h
      cases fetched with
      | none => cases h
      | some fr =>
        dsimp only at h
        by_cases h3 : fetchErrorShape fr = true
        · rw [if_pos h3] at h
          cases h
        · rw [if_neg h3] at h
          cases h
          exact ⟨rfl, rfl, rfl, rfl⟩

theorem c10_placeholder_record_witness :
    ∃ r, sendOpenAICompatibleMessage "aid".data "hello".data
        (some (.jsonResp ⟨none⟩ none none)) = .ok r ∧
      r.answer = "Streaming response...".data ∧ r.sessionId = [] ∧ r.reference = [] := by
  refine ⟨⟨"Streaming response...".data, [], [], .jsonResp ⟨none⟩ none none⟩, ?_, ?_⟩
  · rfl
  · have h := c10_placeholder_record "aid".data "hello".data
      (some (.jsonResp ⟨none⟩ none none))
      ⟨"Streaming response...".data, [], [], .jsonResp ⟨none⟩ none none⟩ rfl
    exact ⟨h.1, h.2.1, h.2.2.1⟩

/-! ## The conversation controller's streaming update loop

`sendMessage` drives `processStream` with a callback that, on every non-final
chunk, appends the chunk to `fullAnswer` and passes the new value to
`updateMessageContent` for the reply message.  `controllerUpdates` is the
sequence of values so passed. -/

def controllerUpdates (evs : List Ev) : List (List Char) :=
  (evs.foldl
    (fun (acc : List Char × List (List Char)) e =>
      if e.2 then acc else (acc.1 ++ e.1, acc.2 ++ [acc.1 ++ e.1]))
    ([], [])).2

theorem controllerUpdates_aux (evs : List Ev) (f : List Char) (vs : List (List Char))
    (hch : List.Chain' (· <+: ·) vs)
    (hlast : ∀ x, vs.getLast? = some x → x <+: f) :
    List.Chain' (· <+: ·)
      ((evs.foldl
        (fun (acc : List Char × List (List Char)) e =>
          if e.2 then acc else (acc.1 ++ e.1, acc.2 ++ [acc.1 ++ e.1]))
        (f, vs)).2) ∧
    (∀ x, ((evs.foldl
        (fun (acc : List Char × List (List Char)) e =>
          if e.2 then acc else (acc.1 ++ e.1, acc.2 ++ [acc.1 ++ e.1]))
        (f, vs)).2).getLast? = some x →
      x <+: (evs.foldl
        (fun (acc : List Char × List (List Char)) e =>
          if e.2 then acc else (acc.1 ++ e.1, acc.2 ++ [acc.1 ++ e.1]))
        (f, vs)).1) := by
  induction evs generalizing f vs with
  | nil => exact ⟨hch, hlast⟩
  | cons e rest ih =>
    rw [List.foldl_cons]
    by_cases he : e.2 = true
    · rw [if_pos he]
      exact ih f vs hch hlast
    · rw [if_neg he]
      refine ih (f ++ e.1) (vs ++ [f ++ e.1]) ?_ ?_
      · rw [List.chain'_append]
        refine ⟨hch, List.chain'_singleton _, ?_⟩
        intro x hx y hy
        simp only [List.head?_cons, Option.mem_def, Option.some.injEq] at hy
        subst hy
        exact (hlast x hx).trans (List.prefix_append f e.1)
      · intro x hx
        rw [List.getLast?_concat] at hx
        cases hx
        exact List.prefix_refl _

theorem controllerUpdates_chain (evs : List Ev) :
    List.Chain' (· <+: ·) (controllerUpdates evs) :=
  (controllerUpdates_aux evs [] [] List.chain'_nil (by simp)).1

/-- C8: during a streaming send, the successive values the controller passes to
`updateMessageContent` for the reply message grow monotonically — each value
has the previous one as a prefix. -/
theorem c8_monotonic_updates (parse : JsonParse) (input : RunInput) (i : Nat)
    (h : i + 1 < (controllerUpdates (processStreamingResponse parse input).1).length) :
    (controllerUpdates (processStreamingResponse parse input).1).get
        ⟨i, Nat.lt_of_succ_lt h⟩ <+:
      (controllerUpdates (processStreamingResponse parse input).1).get ⟨i + 1, h⟩ := by
  have hch := controllerUpdates_chain (processStreamingResponse parse input).1
  exact List.chain'_iff_get.mp hch i (by omega)

theorem c8_monotonic_updates_witness :
    (controllerUpdates (processStreamingResponse parse0
        (.stream [ascii "data: \x7b\"a\"\x7d\ndata: \x7b\"b\"\x7d\n"] .eof)).1).get
          ⟨0, Nat.lt_of_succ_lt (by decide)⟩ <+:
      (controllerUpdates (processStreamingResponse parse0
        (.stream [ascii "data: \x7b\"a\"\x7d\ndata: \x7b\"b\"\x7d\n"] .eof)).1).get ⟨1, by decide⟩ :=
  c8_monotonic_updates parse0 (.stream [ascii "data: \x7b\"a\"\x7d\ndata: \x7b\"b\"\x7d\n"] .eof) 0
    (by decide)

/-! ## `formatConversationAsMarkdown`

Each `content.replace(/regex/g, repl)` call is a single left-to-right scan: at
each position the pattern is tried; on a match the replacement is emitted and
scanning resumes after the matched text, otherwise one character is copied.
`scanReplF` is that scan, fuelled by the input length so that it is structural
(the fuel never runs out since every match consumes at least one character). -/

def scanReplF (m : List Char → Option (List Char × Nat)) : Nat → List Char → List Char
  | _, [] => []
  | fuel, c :: cs =>
    match fuel with
    | 0 => c :: cs
    | fuel + 1 =>
      match m (c :: cs) with
      | some (p, k) =>
        if k = 0 then c :: scanReplF m fuel cs
        else p ++ scanReplF m fuel ((c :: cs).drop k)
      | none => c :: scanReplF m fuel cs

/-- `String.prototype.replace` with a global regex, given the regex's
match-at-position function `m` (replacement text, characters consumed). -/
def jsReplaceAll (m : List Char → Option (List Char × Nat)) (l : List Char) : List Char :=
  scanReplF m l.length l

def isPunct (c : Char) : Bool :=
  c = '.' || c = ',' || c = ';' || c = ':' || c = '!' || c = '?'

def digitRun (l : List Char) : Nat := (l.takeWhile Char.isDigit).length

def wsRun (l : List Char) : Nat := (l.takeWhile jsWs).length

def nlRun (l : List Char) : Nat := (l.takeWhile (fun c => c = '\n')).length

/-- Characters consumed up to and including the first occurrence of `pat`. -/
def consumeThrough (pat : List Char) : List Char → Option Nat
  | [] => none
  | c :: cs =>
    if pat.isPrefixOf (c :: cs) then some pat.length
    else (consumeThrough pat cs).map (· + 1)

/-- Case-insensitive literal prefix test (`pat` given in lower case). -/
def stripCI (pat l : List Char) : Bool := (l.take pat.length).map Char.toLower = pat

/-- `/<think>[\s\S]*?<\/think>/g`: lazily up to the first closing tag. -/
def mThink (l : List Char) : Option (List Char × Nat) :=
  if "<think>".data.isPrefixOf l then
    (consumeThrough "</think>".data (l.drop 7)).map (fun n => ([], 7 + n))
  else none

/-- `/<[^>]*>/g`: from `<` through the first `>`. -/
def mTag : List Char → Option (List Char × Nat)
  | '<' :: cs => (consumeThrough ['>'] cs).map (fun n => ([], 1 + n))
  | _ => none

/-- `/##\d+\$\$/g`. -/
def mHashDD : List Char → Option (List Char × Nat)
  | '#' :: '#' :: rest =>
    if 0 < digitRun rest then
      match rest.drop (digitRun rest) with
      | '$' :: '$' :: _ => some ([], 2 + digitRun rest + 2)
      | _ => none
    else none
  | _ => none

/-- `/\[\d+\]/g`. -/
def mBrackNum : List Char → Option (List Char × Nat)
  | '[' :: rest =>
    if 0 < digitRun rest then
      match rest.drop (digitRun rest) with
      | ']' :: _ => some ([], 1 + digitRun rest + 1)
      | _ => none
    else none
  | _ => none

/-- `/\(ref:\s*\d+\)/gi`. -/
def mParenRef (l : List Char) : Option (List Char × Nat) :=
  if stripCI "(ref:".data l then
    if 0 < digitRun ((l.drop 5).drop (wsRun (l.drop 5))) then
      match ((l.drop 5).drop (wsRun (l.drop 5))).drop
          (digitRun ((l.drop 5).drop (wsRun (l.drop 5)))) with
      | ')' :: _ =>
        some ([], 5 + wsRun (l.drop 5) + digitRun ((l.drop 5).drop (wsRun (l.drop 5))) + 1)
      | _ => none
    else none
  else none

/-- `/\{\s*ref\s*:\s*\d+\s*\}/gi`. -/
def mBraceRef : List Char → Option (List Char × Nat)
  | '{' :: r1 =>
    if stripCI "ref".data (r1.drop (wsRun r1)) then
      match ((r1.drop (wsRun r1)).drop 3).drop (wsRun ((r1.drop (wsRun r1)).drop 3)) with
      | ':' :: r3 =>
        if 0 < digitRun (r3.drop (wsRun r3)) then
          match ((r3.drop (wsRun r3)).drop (digitRun (r3.drop (wsRun r3)))).drop
              (wsRun ((r3.drop (wsRun r3)).drop (digitRun (r3.drop (wsRun r3))))) with
          | '}' :: _ =>
            some ([], 1 + wsRun r1 + 3 + wsRun ((r1.drop (wsRun r1)).drop 3) + 1 +
              wsRun r3 + digitRun (r3.drop (wsRun r3)) +
              wsRun ((r3.drop (wsRun r3)).drop (digitRun (r3.drop (wsRun r3)))) + 1)
          | _ => none
        else none
      | _ => none
    else none
  | _ => none

/-- `/##\d+/g`. -/
def mHashNum : List Char → Option (List Char × Nat)
  | '#' :: '#' :: rest =>
    if 0 < digitRun rest then some ([], 2 + digitRun rest) else none
  | _ => none

/-- `/\$\$/g`. -/
def mDD : List Char → Option (List Char × Nat)
  | a :: b :: _ => if a = '$' ∧ b = '$' then some ([], 2) else none
  | _ => none

/-- `/\s+([.,;:!?])/g → '$1'`. -/
def mSpacePunct (l : List Char) : Option (List Char × Nat) :=
  match l with
  | c :: _ =>
    if jsWs c then
      match l.drop (wsRun l) with
      | p :: _ => if isPunct p then some ([p], wsRun l + 1) else none
      | [] => none
    else none
  | [] => none

/-- `/\s{2,}/g → ' '`. -/
def mWs2 (l : List Char) : Option (List Char × Nat) :=
  match l with
  | a :: b :: _ => if jsWs a && jsWs b then some ([' '], wsRun l) else none
  | _ => none

/-- `/\n{3,}/g → '\n\n'`. -/
def mNl3 (l : List Char) : Option (List Char × Nat) :=
  match l with
  | a :: b :: c :: _ =>
    if a = '\n' ∧ b = '\n' ∧ c = '\n' then some ("\n\n".data, nlRun l) else none
  | _ => none

def removeThinkBlocks (l : List Char) : List Char := jsReplaceAll mThink l
def removeHtmlTags (l : List Char) : List Char := jsReplaceAll mTag l
def removeHashNumDollar (l : List Char) : List Char := jsReplaceAll mHashDD l
def removeBracketNum (l : List Char) : List Char := jsReplaceAll mBrackNum l
def removeParenRefMark (l : List Char) : List Char := jsReplaceAll mParenRef l
def removeBraceRefMark (l : List Char) : List Char := jsReplaceAll mBraceRef l
def removeHashNumMark (l : List Char) : List Char := jsReplaceAll mHashNum l
def removeDollarDollar (l : List Char) : List Char := jsReplaceAll mDD l
def collapseSpaceBeforePunct (l : List Char) : List Char := jsReplaceAll mSpacePunct l
def collapseRunsOfWs (l : List Char) : List Char := jsReplaceAll mWs2 l
def collapseBlankLines (l : List Char) : List Char := jsReplaceAll mNl3 l

/-- `Array.prototype.flatten('\n')`. -/
def joinNl : List (List Char) → List Char
  | [] => []
  | [l] => l
  | l :: ls => l ++ '\n' :: joinNl ls

/-- The content clean-up pipeline of `formatConversationAsMarkdown`, in the
source's order: think blocks, HTML tags, the five reference-marker regexes,
stray `$$`, trim, space-before-punctuation, per-line whitespace collapse and
trim, and blank-line collapse. -/
def cleanContent (s : List Char) : List Char :=
  collapseBlankLines
    (joinNl ((splitNl (collapseSpaceBeforePunct (jsTrim (removeDollarDollar
      (removeHashNumMark (removeBraceRefMark (removeParenRefMark (removeBracketNum
        (removeHashNumDollar (removeHtmlTags (removeThinkBlocks s))))))))))).map
      (fun line => jsTrim (collapseRunsOfWs line))))

inductive Role where
  | user
  | assistant
  | system
  deriving DecidableEq

/-- The controller's `Message` interface (`reference` and `isTemporary`
optional in the source; absent is modelled as `[]` / `false`). -/
structure Message where
  role : Role
  content : List Char
  reference : List Reference
  isTemporary : Bool
  id : Option (List Char)
  deriving DecidableEq

def renderReference (ref : Reference) : List Char :=
  "- **".data ++
    (if ref.document_name = [] then "Unknown document".data else ref.document_name) ++
    "**: ".data ++ (jsTrim (removeHtmlTags ref.content)).take 200 ++
    (if 200 < (jsTrim (removeHtmlTags ref.content)).length then "...".data else []) ++
    "\n".data

def renderReferences (refs : List Reference) : List Char :=
  if refs ≠ [] then
    "**References:**\n\n".data ++ (refs.map renderReference).flatten ++ "\n".data
  else []

def renderMessage (msg : Message) : List Char :=
  if msg.isTemporary then []
  else if cleanContent msg.content = [] then []
  else
    "### ".data ++
      (if msg.role = Role.user then "**You**".data else "**RAGFlow**".data) ++
      "\n\n".data ++ cleanContent msg.content ++ "\n\n".data ++
      renderReferences msg.reference

/-- The persisted transcript: header (assistant label and date are the ambient
values the method reads), then each non-temporary message's cleaned section. -/
def formatConversationAsMarkdown (assistantLabel dateStr : List Char)
    (messages : List Message) : List Char :=
  "# RAGFlow Conversation\n\n".data ++
    "*Chat Assistant: ".data ++ assistantLabel ++ "*\n\n".data ++
    "*Date: ".data ++ dateStr ++ "*\n\n".data ++
    "---\n\n".data ++
    (messages.map renderMessage).flatten

/-! ## No stray `$$` survives the clean-up

`NN a b` says the pair `a b` is not a `$$` occurrence; `Chain' NN` therefore
says the string contains no `$$` substring.  The `/\$\$/g` pass establishes
the property and every later pass preserves it, because the later passes only
ever delete characters in front of a kept punctuation/space/newline character
or at the ends of a segment. -/

def NN (a b : Char) : Prop := ¬(a = '$' ∧ b = '$')

theorem NN_of_left {a : Char} (h : a ≠ '$') (b : Char) : NN a b :=
  fun hcon => h hcon.1

theorem NN_of_right {b : Char} (h : b ≠ '$') (a : Char) : NN a b :=
  fun hcon => h hcon.2

theorem chain'_NN_of_not_mem : ∀ {l : List Char}, '$' ∉ l → List.Chain' NN l := by
  intro l
  induction l with
  | nil => intro _; exact List.chain'_nil
  | cons c cs ih =>
    intro h
    rw [List.chain'_cons']
    refine ⟨fun y _ => NN_of_left (fun hc => h (hc ▸ List.mem_cons_self c cs)) y,
      ih (fun hm => h (List.mem_cons_of_mem c hm))⟩

theorem chain'_NN_jsTrim {l : List Char} (h : List.Chain' NN l) :
    List.Chain' NN (jsTrim l) := by
  have hsym : ∀ x : List Char, List.Chain' NN x → List.Chain' (flip NN) x :=
    fun x hx => hx.imp fun a b hab hcon => hab ⟨hcon.2, hcon.1⟩
  have h1 : List.Chain' NN (l.dropWhile jsWs) := h.suffix (List.dropWhile_suffix _)
  have h2 : List.Chain' NN (l.dropWhile jsWs).reverse :=
    List.chain'_reverse.mpr (hsym _ h1)
  have h3 : List.Chain' NN ((l.dropWhile jsWs).reverse.dropWhile jsWs) :=
    h2.suffix (List.dropWhile_suffix _)
  exact List.chain'_reverse.mpr (hsym _ h3)

theorem mSpacePunct_shape {l p : List Char} {k : Nat}
    (h : mSpacePunct l = some (p, k)) : p ≠ [] ∧ '$' ∉ p := by
  unfold mSpacePunct at h
  repeat' split at h
  all_goals cases h
  refine ⟨by simp, ?_⟩
  intro hm
  rw [List.mem_singleton] at hm
  subst hm
  exact absurd ‹isPunct '$' = true› (by decide)

theorem mWs2_shape {l p : List Char} {k : Nat}
    (h : mWs2 l = some (p, k)) : p ≠ [] ∧ '$' ∉ p := by
  unfold mWs2 at h
  repeat' split at h
  all_goals cases h
  exact ⟨by simp, by decide⟩

theorem mNl3_shape {l p : List Char} {k : Nat}
    (h : mNl3 l = some (p, k)) : p ≠ [] ∧ '$' ∉ p := by
  unfold mNl3 at h
  repeat' split at h
  all_goals cases h
  exact ⟨by decide, by decide⟩

/-- The head of a scan's output is the head of the input, or a character of a
replacement. -/
theorem scanReplF_head (m : List Char → Option (List Char × Nat))
    (hm : ∀ l p k, m l = some (p, k) → p ≠ [] ∧ '$' ∉ p)
    (fuel : Nat) (l : List Char) (y : Char)
    (hy : y ∈ (scanReplF m fuel l).head?) : y ∈ l.head? ∨ y ≠ '$' := by
  cases l with
  | nil =>
    cases fuel <;> simp [scanReplF] at hy
  | cons c cs =>
    cases fuel with
    | zero =>
      simp only [scanReplF, List.head?_cons, Option.mem_def, Option.some.injEq] at hy ⊢
      exact Or.inl hy
    | succ fuel =>
      simp only [scanReplF] at hy
      cases hmm : m (c :: cs) with
      | none =>
        rw [hmm] at hy
        simp only [List.head?_cons, Option.mem_def, Option.some.injEq] at hy ⊢
        exact Or.inl hy
      | some pk =>
        rw [hmm] at hy
        obtain ⟨p, k⟩ := pk
        dsimp only at hy
        by_cases hk : k = 0
        · rw [if_pos hk] at hy
          simp only [List.head?_cons, Option.mem_def, Option.some.injEq] at hy ⊢
          exact Or.inl hy
        · rw [if_neg hk] at hy
          obtain ⟨hpne, hpd⟩ := hm _ _ _ hmm
          cases p with
          | nil => exact absurd rfl hpne
          | cons p0 pr =>
            rw [List.cons_append, List.head?_cons] at hy
            simp only [Option.mem_def, Option.some.injEq] at hy
            subst hy
            exact Or.inr (fun hc => hpd (hc ▸ List.mem_cons_self _ _))

/-- A scan whose replacements are nonempty and `$`-free preserves
`$$`-freeness. -/
theorem scanReplF_chain_NN (m : List Char → Option (List Char × Nat))
    (hm : ∀ l p k, m l = some (p, k) → p ≠ [] ∧ '$' ∉ p) :
    ∀ (fuel : Nat) (l : List Char), List.Chain' NN l →
      List.Chain' NN (scanReplF m fuel l) := by
  intro fuel
  induction fuel with
  | zero =>
    intro l hl
    cases l with
    | nil => exact List.chain'_nil
    | cons c cs => exact hl
  | succ fuel ih =>
    intro l hl
    cases l with
    | nil => exact List.chain'_nil
    | cons c cs =>
      show List.Chain' NN (scanReplF m (fuel + 1) (c :: cs))
      simp only [scanReplF]
      cases hmm : m (c :: cs) with
      | none =>
        dsimp only
        rw [List.chain'_cons']
        refine ⟨?_, ih cs hl.tail⟩
        intro y hy
        rcases scanReplF_head m hm fuel cs y hy with hin | hne
        · exact (List.chain'_cons'.mp hl).1 y hin
        · exact NN_of_right hne c
      | some pk =>
        obtain ⟨p, k⟩ := pk
        dsimp only
        by_cases hk : k = 0
        · rw [if_pos hk]
          rw [List.chain'_cons']
          refine ⟨?_, ih cs hl.tail⟩
          intro y hy
          rcases scanReplF_head m hm fuel cs y hy with hin | hne
          · exact (List.chain'_cons'.mp hl).1 y hin
          · exact NN_of_right hne c
        · rw [if_neg hk]
          obtain ⟨hpne, hpd⟩ := hm _ _ _ hmm
          rw [List.chain'_append]
          refine ⟨chain'_NN_of_not_mem hpd, ih _ (hl.drop k), ?_⟩
          intro x hx y hy
          exact NN_of_left (fun hc => hpd (hc ▸ List.mem_of_mem_getLast? hx)) y

theorem scanReplF_mDD_head (fuel : Nat) (d : Char) (t : List Char) (hd : d ≠ '$') :
    (scanReplF mDD fuel (d :: t)).head? = some d := by
  cases fuel with
  | zero => rfl
  | succ fuel =>
    cases t with
    | nil => rfl
    | cons e r =>
      show (scanReplF mDD (fuel + 1) (d :: e :: r)).head? = some d
      simp only [scanReplF, mDD]
      rw [if_neg (fun hcon => hd hcon.1)]
      rfl

theorem chain'_NN_removeDD_fuel : ∀ (fuel : Nat) (l : List Char), l.length ≤ fuel →
    List.Chain' NN (scanReplF mDD fuel l) := by
  intro fuel
  induction fuel with
  | zero =>
    intro l hl
    rw [List.length_eq_zero.mp (Nat.le_zero.mp hl)]
    exact List.chain'_nil
  | succ fuel ih =>
    intro l hl
    cases l with
    | nil => exact List.chain'_nil
    | cons c cs =>
      cases cs with
      | nil =>
        have h1 : scanReplF mDD (fuel + 1) [c] = [c] := by
          cases fuel <;> rfl
        rw [h1]
        exact List.chain'_singleton c
      | cons d t =>
        by_cases hcd : c = '$' ∧ d = '$'
        · have hstep : scanReplF mDD (fuel + 1) (c :: d :: t) = scanReplF mDD fuel t := by
            simp only [scanReplF, mDD]
            rw [if_pos hcd]
            rfl
          rw [hstep]
          refine ih t ?_
          simp only [List.length_cons] at hl
          omega
        · have hstep : scanReplF mDD (fuel + 1) (c :: d :: t) =
              c :: scanReplF mDD fuel (d :: t) := by
            simp only [scanReplF, mDD]
            rw [if_neg hcd]
          rw [hstep]
          rw [List.chain'_cons']
          refine ⟨?_, ih (d :: t) (by simp only [List.length_cons] at hl ⊢; omega)⟩
          intro y hy
          by_cases hd : d = '$'
          · exact NN_of_left (fun hc => hcd ⟨hc, hd⟩) y
          · rw [scanReplF_mDD_head fuel d t hd] at hy
            simp only [Option.mem_def, Option.some.injEq] at hy
            subst hy
            exact fun hcon => hcd hcon

theorem chain'_NN_removeDollarDollar (l : List Char) :
    List.Chain' NN (removeDollarDollar l) :=
  chain'_NN_removeDD_fuel l.length l (Nat.le_refl _)

theorem splitNl_head_pre : ∀ (l seg : List Char) (segs : List (List Char)),
    splitNl l = seg :: segs → seg <+: l := by
  intro l
  induction l with
  | nil =>
    intro seg segs h
    rw [show splitNl [] = [[]] from rfl] at h
    injection h with h1 h2
    subst h1
    exact List.nil_prefix
  | cons c cs ih =>
    intro seg segs h
    rw [splitNl_cons] at h
    by_cases hc : c = '\n'
    · rw [if_pos hc] at h
      injection h with h1 h2
      subst h1
      exact List.nil_prefix
    · rw [if_neg hc] at h
      rcases hcs : splitNl cs with _ | ⟨s0, ss⟩
      · exact absurd hcs (splitNl_ne_nil cs)
      · rw [hcs, headPre_cons] at h
        injection h with h1 h2
        subst h1
        have hp := ih s0 ss hcs
        show [c] ++ s0 <+: c :: cs
        rw [List.singleton_append]
        exact List.cons_prefix_cons.mpr ⟨rfl, hp⟩

theorem infix_of_mem_splitNl : ∀ (l seg : List Char), seg ∈ splitNl l → seg <:+: l := by
  intro l
  induction l with
  | nil =>
    intro seg h
    rw [show splitNl [] = [[]] from rfl] at h
    rw [List.mem_singleton] at h
    subst h
    exact List.nil_infix
  | cons c cs ih =>
    intro seg h
    rw [splitNl_cons] at h
    by_cases hc : c = '\n'
    · rw [if_pos hc] at h
      rcases List.mem_cons.mp h with h1 | h2
      · subst h1
        exact List.nil_infix
      · exact List.infix_cons (ih seg h2)
    · rw [if_neg hc] at h
      rcases hcs : splitNl cs with _ | ⟨s0, ss⟩
      · exact absurd hcs (splitNl_ne_nil cs)
      · rw [hcs, headPre_cons] at h
        rcases List.mem_cons.mp h with h1 | h2
        · subst h1
          have hp := splitNl_head_pre cs s0 ss hcs
          have hpre : [c] ++ s0 <+: c :: cs := by
            rw [List.singleton_append]
            exact List.cons_prefix_cons.mpr ⟨rfl, hp⟩
          exact List.IsPrefix.isInfix hpre
        · exact List.infix_cons (ih seg (by rw [hcs]; exact List.mem_cons_of_mem s0 h2))

theorem chain'_NN_joinNl : ∀ (lines : List (List Char)),
    (∀ l ∈ lines, List.Chain' NN l) → List.Chain' NN (joinNl lines) := by
  intro lines
  induction lines with
  | nil => intro _; exact List.chain'_nil
  | cons l rest ih =>
    intro h
    cases rest with
    | nil => exact h l (List.mem_cons_self _ _)
    | cons l2 ls =>
      show List.Chain' NN (l ++ '\n' :: joinNl (l2 :: ls))
      rw [List.chain'_append]
      refine ⟨h l (List.mem_cons_self _ _), ?_, ?_⟩
      · rw [List.chain'_cons']
        exact ⟨fun y _ => NN_of_left (by decide) y,
          ih (fun x hx => h x (List.mem_cons_of_mem _ hx))⟩
      · intro x hx y hy
        rw [List.head?_cons] at hy
        simp only [Option.mem_def, Option.some.injEq] at hy
        subst hy
        exact NN_of_right (by decide) x

/-- The clean-up pipeline, spelled out (definitional). -/
theorem cleanContent_eq (s : List Char) : cleanContent s = collapseBlankLines
    (joinNl ((splitNl (collapseSpaceBeforePunct (jsTrim (removeDollarDollar
      (removeHashNumMark (removeBraceRefMark (removeParenRefMark (removeBracketNum
        (removeHashNumDollar (removeHtmlTags (removeThinkBlocks s))))))))))).map
      (fun line => jsTrim (collapseRunsOfWs line)))) := rfl

theorem chain'_NN_collapseBlankLines {l : List Char} (h : List.Chain' NN l) :
    List.Chain' NN (collapseBlankLines l) := by
  unfold collapseBlankLines jsReplaceAll
  exact scanReplF_chain_NN mNl3 (fun l p k h => mNl3_shape h) _ _ h

theorem chain'_NN_collapseRunsOfWs {l : List Char} (h : List.Chain' NN l) :
    List.Chain' NN (collapseRunsOfWs l) := by
  unfold collapseRunsOfWs jsReplaceAll
  exact scanReplF_chain_NN mWs2 (fun l p k h => mWs2_shape h) _ _ h

theorem chain'_NN_collapseSpaceBeforePunct {l : List Char} (h : List.Chain' NN l) :
    List.Chain' NN (collapseSpaceBeforePunct l) := by
  unfold collapseSpaceBeforePunct jsReplaceAll
  exact scanReplF_chain_NN mSpacePunct (fun l p k h => mSpacePunct_shape h) _ _ h

theorem chain'_NN_cleanContent (s : List Char) : List.Chain' NN (cleanContent s) := by
  refine Eq.mpr (congrArg (List.Chain' NN) (cleanContent_eq s)) ?_
  have hch : List.Chain' NN (removeDollarDollar (removeHashNumMark (removeBraceRefMark
      (removeParenRefMark (removeBracketNum (removeHashNumDollar (removeHtmlTags
        (removeThinkBlocks s)))))))) := chain'_NN_removeDollarDollar _
  generalize removeDollarDollar (removeHashNumMark (removeBraceRefMark
      (removeParenRefMark (removeBracketNum (removeHashNumDollar (removeHtmlTags
        (removeThinkBlocks s))))))) = x at hch ⊢
  have h10 : List.Chain' NN (collapseSpaceBeforePunct (jsTrim x)) :=
    chain'_NN_collapseSpaceBeforePunct (chain'_NN_jsTrim hch)
  apply chain'_NN_collapseBlankLines
  apply chain'_NN_joinNl
  intro line hline
  rw [List.mem_map] at hline
  obtain ⟨l0, hl0, rfl⟩ := hline
  exact chain'_NN_jsTrim (chain'_NN_collapseRunsOfWs
    ( List.Chain'.infix h10 (infix_of_mem_splitNl _ l0 hl0)))

theorem chain'_NN_no_dd {l : List Char} (h : List.Chain' NN l) :
    ¬ ("$$".data <:+: l) := by
  rintro ⟨u, v, huv⟩
  rw [← huv, List.append_assoc] at h
  have h2 : List.Chain' NN ('$' :: '$' :: v) := h.right_of_append
  exact (List.chain'_cons.mp h2).1 ⟨rfl, rfl⟩

theorem renderMessage_temp {msg : Message} (h : msg.isTemporary = true) :
    renderMessage msg = [] := by
  unfold renderMessage
  rw [if_pos h]

theorem format_skips_temporary (assistantLabel dateStr : List Char)
    (messages : List Message) :
    formatConversationAsMarkdown assistantLabel dateStr messages =
      formatConversationAsMarkdown assistantLabel dateStr
        (messages.filter (fun msg => !msg.isTemporary)) := by
  unfold formatConversationAsMarkdown
  have hjoin : ∀ msgs : List Message,
      ((msgs.filter (fun msg => !msg.isTemporary)).map renderMessage).flatten =
        (msgs.map renderMessage).flatten := by
    intro msgs
    induction msgs with
    | nil => rfl
    | cons msg rest ih =>
      by_cases h : msg.isTemporary = true
      · rw [List.filter_cons]
        simp only [h, Bool.not_true, if_neg (by simp : ¬(false = true))]
        rw [ih, List.map_cons, List.flatten_cons, renderMessage_temp h, List.nil_append]
      · have hf : msg.isTemporary = false := by simpa using h
        rw [List.filter_cons]
        simp only [hf, Bool.not_false, if_true]
        rw [List.map_cons, List.flatten_cons, List.map_cons, List.flatten_cons, ih]
  rw [hjoin]

/-- C9 counterexample: in the retained message content `#$$#1`, the `$$`
removal joins `#` and `#1` into the reference marker `##1`, which appears
verbatim in the persisted markdown — so the persisted note does contain a
marker of the form `##N`. -/
theorem c9_marker_counterexample :
    "##1".data <:+: formatConversationAsMarkdown "A".data "D".data
      [⟨Role.user, "#$$#1".data, [], false, none⟩] := by decide

/-- C9 (amended): the persisted markdown contains no content from messages
marked temporary, and no stray `$$` token survives the clean-up of a retained
message's content; the bracketed marker forms (`##N$$`, `[N]`, `(ref: N)`,
`{ref: N}`, `##N`) are each removed by one left-to-right pass, but
marker-shaped text formed when a removal joins the surrounding characters can
remain in the output. -/
theorem c9_temp_skipped_no_stray_dollars :
    (∀ (assistantLabel dateStr : List Char) (messages : List Message),
      formatConversationAsMarkdown assistantLabel dateStr messages =
        formatConversationAsMarkdown assistantLabel dateStr
          (messages.filter (fun msg => !msg.isTemporary))) ∧
    (∀ s : List Char, ¬ ("$$".data <:+: cleanContent s)) :=
  ⟨format_skips_temporary,
    fun s => chain'_NN_no_dd (chain'_NN_cleanContent s)⟩
